import Mathlib

/-!
Verification of the PBW-basis multiplication engine and group-algebra
constructors from sage.algebras (poincare_birkhoff_witt.py and
group_algebra.py), via a shallow embedding.

Monomials of the indexed free abelian monoid are represented as words
(lists of generator indices) kept sorted by the basis key; an exponent
`e` appears as `e` adjacent copies of the generator, so the length of
the word is the total exponent sum.  Algebra elements (linear
combinations of monomials) are term lists whose meaning is the
coefficient function `coeff`.  The recursive rewriting engine
`product_on_basis` is embedded with an explicit fuel parameter `pobF`;
totality at the computable fuel bound `pobFuel` is proved from the
filtration measure (degree, then inversion count).
-/

namespace Sage

/-- A monomial of the PBW basis: a word of generator indices, canonical
when sorted (nondecreasingly) by the basis key. -/
abbrev Mono : Type := List Nat

/-- A linear combination of monomials, as a list of terms; its meaning
is the coefficient function `coeff`. -/
abbrev LinComb : Type := List (Mono × Int)

/-- The two oracles consumed by the rewriting engine: the ordering
oracle `basis_key` and the Lie bracket oracle `bracket`, which returns
the bracket of two generators as a linear combination of generators. -/
structure LieData where
  basis_key : Nat → Int
  bracket : Nat → Nat → List (Nat × Int)

/-- Coefficient of the monomial `m` in the linear combination `l`. -/
def coeff (l : LinComb) (m : Mono) : Int :=
  (l.map (fun p => if p.1 = m then p.2 else 0)).sum

/-- Scalar multiple of a linear combination. -/
def smulLC (c : Int) (l : LinComb) : LinComb :=
  l.map (fun p => (p.1, c * p.2))

/-- Insertion of one letter into a word at its sorted position (before
the first letter of key at least as large). -/
def mergeInto (k : Nat → Int) (a : Nat) : Mono → Mono
  | [] => [a]
  | b :: ys => if k a ≤ k b then a :: b :: ys else b :: mergeInto k a ys

/-- Product in the indexed free abelian monoid, on sorted words: the
sorted merge by the basis key, inserting the letters of the left word
into the right word. -/
def merge (k : Nat → Int) : Mono → Mono → Mono
  | [], y => y
  | a :: xs, y => mergeInto k a (merge k xs y)

/-- A monomial is canonical when its word is sorted by the basis key. -/
def canonical (k : Nat → Int) (m : Mono) : Prop :=
  List.Sorted (fun a b => k a ≤ k b) m

instance (k : Nat → Int) (m : Mono) : Decidable (canonical k m) := by
  unfold canonical
  infer_instance

/-- The correction term of the commutation identity for an inversion
with trailing factor `trail` and leading factor `lead`: the bracket
of the two generators, expressed as a linear combination of single
generators, plus the ordered monomial `lead * trail`. -/
def corrOf (L : LieData) (trail lead : Nat) : LinComb :=
  (L.bracket trail lead).map (fun p => ([p.1], p.2)) ++
    [(merge L.basis_key [lead] [trail], 1)]

/-- One row of the bilinear extension of a (fallible) product on basis
elements: the term `p` of the left factor multiplied against every term
of the right factor. -/
def rowF (f : Mono → Mono → Option LinComb) (p : Mono × Int) :
    LinComb → Option LinComb
  | [] => some []
  | q :: qs =>
    (f p.1 q.1).bind fun r =>
      (rowF f p qs).map fun rest => smulLC (p.2 * q.2) r ++ rest

/-- Bilinear extension of a (fallible) product on basis elements to
linear combinations. -/
def pairsF (f : Mono → Mono → Option LinComb) :
    LinComb → LinComb → Option LinComb
  | [], _ => some []
  | p :: ps, b =>
    (rowF f p b).bind fun r =>
      (pairsF f ps b).map fun rest => r ++ rest

/-- Fuelled embedding of PoincareBirkhoffWittBasis.product_on_basis.
With fuel available, the body follows the source line by line: the two
identity base cases, then the comparison of the basis keys of the
trailing factor of lhs and the leading factor of rhs; when in order it
returns the merged monomial with coefficient 1, otherwise it builds the
correction term from the bracket oracle and recurses through the two
module multiplications. -/
def pobF (L : LieData) : Nat → Mono → Mono → Option LinComb
  | 0, _, _ => none
  | fuel + 1, lhs, rhs =>
    if hl : lhs = [] then some [(rhs, 1)]
    else if hr : rhs = [] then some [(lhs, 1)]
    else if L.basis_key (lhs.getLast hl) ≤ L.basis_key (rhs.head hr) then
      some [(merge L.basis_key lhs rhs, 1)]
    else
      (pairsF (pobF L fuel) [(lhs.dropLast, 1)]
          (corrOf L (lhs.getLast hl) (rhs.head hr))).bind
        fun t1 => pairsF (pobF L fuel) t1 [(rhs.tail, 1)]

/-- A fuel bound sufficient for `pobF` to terminate on canonical
inputs (proved below): with `d` the total degree of the two operands,
`(d + 1) * (d * d + 1)` strictly dominates the lexicographic measure
(total degree, inversion count). -/
def pobFuel (x y : Mono) : Nat :=
  (x.length + y.length + 1) *
    ((x.length + y.length) * (x.length + y.length) + 1)

/-- The product of two basis monomials: the fuelled engine run at the
sufficient fuel bound. -/
def product_on_basis (L : LieData) (x y : Mono) : LinComb :=
  (pobF L (pobFuel x y) x y).getD []

/-- The basis element indexing 1: the empty monomial. -/
def one_basis : Mono := []

/-- Degree of a basis monomial: its length, i.e. the total exponent
sum. -/
def degree_on_basis (m : Mono) : Nat := m.length

/-- One row of the bilinear extension of the total product. -/
def rowT (f : Mono → Mono → LinComb) (p : Mono × Int) : LinComb → LinComb
  | [] => []
  | q :: qs => smulLC (p.2 * q.2) (f p.1 q.1) ++ rowT f p qs

/-- Bilinear extension of the total product on basis elements. -/
def pairsT (f : Mono → Mono → LinComb) : LinComb → LinComb → LinComb
  | [], _ => []
  | p :: ps, b => rowT f p b ++ pairsT f ps b

/-- Module multiplication of two algebra elements: the bilinear
extension of `product_on_basis`. -/
def mulLC (L : LieData) (a b : LinComb) : LinComb :=
  pairsT (product_on_basis L) a b

/-- Number of letters of `y` whose key is strictly below the key of
`a`. -/
def cnt (k : Nat → Int) (a : Nat) (y : Mono) : Nat :=
  (y.filter (fun b => decide (k b < k a))).length

/-- Inversion count across the pair of words `x`, `y`: the number of
pairs of letters, one from each, that are out of order. -/
def invc (k : Nat → Int) (x y : Mono) : Nat :=
  (x.map (fun a => cnt k a y)).sum

/-- The termination measure: total degree weighted by `D * D + 1`
(with `D` a global degree bound), plus the inversion count. -/
def phiM (k : Nat → Int) (D : Nat) (x y : Mono) : Nat :=
  (x.length + y.length) * (D * D + 1) + invc k x y

/-- The 3-dimensional Lie algebra of the concrete scenario, with
generators E = 0, F = 1, H = 2 ordered by their indices and brackets
[E,F] = H, [H,E] = 2E, [H,F] = -2F. -/
def sl2 : LieData where
  basis_key := fun n => (n : Int)
  bracket := fun i j =>
    match i, j with
    | 0, 1 => [(2, 1)]
    | 1, 0 => [(2, -1)]
    | 2, 0 => [(0, 2)]
    | 0, 2 => [(0, -2)]
    | 2, 1 => [(1, -2)]
    | 1, 2 => [(1, 2)]
    | _, _ => []

/-- Embedding of the inverse support map inv_supp of the coercion from
the Lie algebra: none exactly when the monomial length differs from 1,
otherwise the single generator it supports. -/
def inv_supp (m : Mono) : Option Nat :=
  if m.length ≠ 1 then none else some m.headI

/-- Embedding of the basis function of the lift coercion, extended
linearly: a Lie algebra element (a linear combination of generators)
maps to the linear combination of the corresponding length-1
monomials. -/
def lift (x : List (Nat × Int)) : LinComb :=
  x.map (fun p => ([p.1], p.2))

/-- Modelled from the spec: the partial inverse of the lift module
morphism (the module_morphism triangular-inverse machinery is outside
this excerpt).  It applies the source's inv_supp to every monomial of
the element and reports failure (none) as soon as some monomial has no
preimage. -/
def retract : LinComb → Option (List (Nat × Int))
  | [] => some []
  | p :: ps =>
    ((inv_supp p.1).map (fun g => (g, p.2))).bind fun q =>
      (retract ps).map fun qs => q :: qs

/-- The facts about the first argument of GroupAlgebra that its eager
validation consults. -/
structure ParentData where
  isMagma : Bool
  isAdditiveMagma : Bool

/-- The fact about the second argument of GroupAlgebra that its eager
validation consults. -/
structure RingData where
  isRing : Bool

/-- Embedding of the GroupAlgebra constructor.  The construction
`G.algebra(R)` performed by the external framework is the injected
function `alg`; a raised ValueError is an error result. -/
def GroupAlgebra {α : Type} (alg : ParentData → RingData → α)
    (G : ParentData) (R : RingData) : Except String α :=
  if !(G.isMagma || G.isAdditiveMagma) then
    Except.error "is not a magma or additive magma"
  else if !R.isRing then
    Except.error "is not a ring"
  else
    Except.ok (alg G R)

/-- The facts about a group algebra parent and a candidate source
parent `S` (identified by a numeric id) that the coercion discovery of
GroupAlgebra_class consults. -/
structure GAParent where
  gCoercesFrom : Nat → Bool
  isGroupAlgebraCat : Bool
  sInSetsAlgebras : Nat → Bool
  homK : Nat → Bool
  homG : Nat → Bool

/-- The two kinds of coercion the method can return. -/
inductive CoercionMap
  | fromGroup
  | induced
deriving DecidableEq

/-- Embedding of GroupAlgebra_class._coerce_map_from_.  When the
underlying structure G coerces from S, the answer is the boolean test
that the category is a subcategory of group algebras; otherwise the
method looks for an induced morphism between algebras and falls back to
no coercion. -/
def _coerce_map_from_ (P : GAParent) (S : Nat) : Option CoercionMap :=
  if P.gCoercesFrom S then
    if P.isGroupAlgebraCat then some CoercionMap.fromGroup else none
  else if P.sInSetsAlgebras S && P.homK S && P.homG S then
    some CoercionMap.induced
  else none

/-! Lemmas about canonical (sorted) words. -/

theorem canonical_nil (k : Nat → Int) : canonical k [] :=
  List.sorted_nil

theorem canonical_singleton (k : Nat → Int) (a : Nat) : canonical k [a] :=
  List.sorted_singleton a

theorem canonical_pair {k : Nat → Int} {a b : Nat} (h : k a ≤ k b) :
    canonical k [a, b] := by
  unfold canonical
  simp [List.sorted_cons, h]

theorem canonical_cons {k : Nat → Int} {a : Nat} {l : Mono}
    (h : canonical k (a :: l)) : canonical k l ∧ ∀ b ∈ l, k a ≤ k b := by
  have h2 := List.sorted_cons.mp h
  exact ⟨h2.2, h2.1⟩

theorem eq_dropLast_getLast {x : Mono} (h : x ≠ []) :
    x = x.dropLast ++ [x.getLast h] :=
  (List.dropLast_append_getLast h).symm

theorem canonical_dropLast {k : Nat → Int} {x : Mono}
    (h : canonical k x) : canonical k x.dropLast :=
  List.Pairwise.sublist (List.dropLast_sublist x) h

theorem le_getLast_of_mem_dropLast {k : Nat → Int} {x : Mono}
    (hx : canonical k x) (hne : x ≠ []) :
    ∀ a ∈ x.dropLast, k a ≤ k (x.getLast hne) := by
  intro a ha
  have h2 : List.Pairwise (fun a b => k a ≤ k b)
      (x.dropLast ++ [x.getLast hne]) := by
    rw [← eq_dropLast_getLast hne]; exact hx
  have h3 := (List.pairwise_append.mp h2).2.2
  exact h3 a ha (x.getLast hne) (by simp)

theorem le_getLast_of_mem {k : Nat → Int} {x : Mono}
    (hx : canonical k x) (hne : x ≠ []) :
    ∀ a ∈ x, k a ≤ k (x.getLast hne) := by
  intro a ha
  rw [eq_dropLast_getLast hne] at ha
  rcases List.mem_append.mp ha with h1 | h2
  · exact le_getLast_of_mem_dropLast hx hne a h1
  · rcases List.mem_singleton.mp h2 with rfl
    exact le_refl _

theorem eq_head_tail {y : Mono} (h : y ≠ []) : y = y.head h :: y.tail :=
  (List.head_cons_tail y h).symm

theorem canonical_tail {k : Nat → Int} {y : Mono}
    (hy : canonical k y) : canonical k y.tail := by
  cases y with
  | nil => exact hy
  | cons b ys => exact (canonical_cons hy).1

theorem head_le_of_mem_tail {k : Nat → Int} {y : Mono}
    (hy : canonical k y) (hne : y ≠ []) :
    ∀ b ∈ y.tail, k (y.head hne) ≤ k b := by
  intro b hb
  have h2 : canonical k (y.head hne :: y.tail) := by
    rw [← eq_head_tail hne]; exact hy
  exact (canonical_cons h2).2 b hb

/-! Lemmas about the monoid product on sorted words. -/

theorem mergeInto_perm (k : Nat → Int) (a : Nat) :
    ∀ l : Mono, List.Perm (mergeInto k a l) (a :: l) := by
  intro l
  induction l with
  | nil => simp [mergeInto]
  | cons b ys ih =>
    simp only [mergeInto]
    split
    · exact List.Perm.refl _
    · exact (List.Perm.cons b ih).trans (List.Perm.swap a b ys)

theorem merge_perm (k : Nat → Int) :
    ∀ x y : Mono, List.Perm (merge k x y) (x ++ y) := by
  intro x
  induction x with
  | nil => intro y; simp [merge]
  | cons a xs ihx =>
    intro y
    simp only [merge]
    exact (mergeInto_perm k a (merge k xs y)).trans
      (List.Perm.cons a (ihx y))

theorem merge_length (k : Nat → Int) (x y : Mono) :
    (merge k x y).length = x.length + y.length := by
  have h := (merge_perm k x y).length_eq
  simpa using h

theorem mergeInto_sorted (k : Nat → Int) (a : Nat) :
    ∀ l : Mono, canonical k l → canonical k (mergeInto k a l) := by
  intro l
  induction l with
  | nil =>
    intro _
    exact canonical_singleton k a
  | cons b ys ih =>
    intro hl
    simp only [mergeInto]
    split
    case isTrue h =>
      refine List.sorted_cons.mpr ⟨?_, hl⟩
      intro c hc
      rcases List.mem_cons.mp hc with rfl | h2
      · exact h
      · exact le_trans h ((List.sorted_cons.mp hl).1 c h2)
    case isFalse h =>
      have hba : k b ≤ k a := le_of_lt (lt_of_not_le h)
      refine List.sorted_cons.mpr ⟨?_, ih (List.sorted_cons.mp hl).2⟩
      intro c hc
      have hc2 := (mergeInto_perm k a ys).mem_iff.mp hc
      rcases List.mem_cons.mp hc2 with rfl | h3
      · exact hba
      · exact (List.sorted_cons.mp hl).1 c h3

theorem merge_sorted (k : Nat → Int) :
    ∀ x y : Mono, canonical k x → canonical k y → canonical k (merge k x y) := by
  intro x
  induction x with
  | nil => intro y _ hy; simpa [merge] using hy
  | cons a xs ihx =>
    intro y hx hy
    simp only [merge]
    exact mergeInto_sorted k a _ (ihx y (canonical_cons hx).1 hy)

theorem mergeInto_eq_cons (k : Nat → Int) (a : Nat) {l : Mono}
    (h : ∀ b ∈ l, k a ≤ k b) : mergeInto k a l = a :: l := by
  cases l with
  | nil => rfl
  | cons b ys =>
    simp only [mergeInto]
    rw [if_pos (h b (by simp))]

theorem merge_eq_append (k : Nat → Int) :
    ∀ x y : Mono, canonical k x → (∀ a ∈ x, ∀ b ∈ y, k a ≤ k b) →
      merge k x y = x ++ y := by
  intro x
  induction x with
  | nil => intro y _ _; simp [merge]
  | cons a xs ihx =>
    intro y hx h
    simp only [merge]
    rw [ihx y (canonical_cons hx).1
      (fun c hc => h c (List.mem_cons_of_mem a hc))]
    rw [mergeInto_eq_cons k a ?_]
    · simp
    · intro b hb
      rcases List.mem_append.mp hb with h1 | h2
      · exact (canonical_cons hx).2 b h1
      · exact h a (by simp) b h2

theorem merge_pair (k : Nat → Int) {a b : Nat} (h : k a ≤ k b) :
    merge k [a] [b] = [a, b] := by
  simpa using merge_eq_append k [a] [b] (canonical_singleton k a)
    (by simpa using h)

/-! Lemmas about coefficients of linear combinations. -/

theorem coeff_nil (m : Mono) : coeff [] m = 0 := rfl

theorem coeff_cons (p : Mono × Int) (l : LinComb) (m : Mono) :
    coeff (p :: l) m = (if p.1 = m then p.2 else 0) + coeff l m := by
  simp [coeff]

theorem coeff_append (a b : LinComb) (m : Mono) :
    coeff (a ++ b) m = coeff a m + coeff b m := by
  simp [coeff]

theorem coeff_smulLC (c : Int) (l : LinComb) (m : Mono) :
    coeff (smulLC c l) m = c * coeff l m := by
  induction l with
  | nil => simp [coeff, smulLC]
  | cons p ps ih =>
    have h1 : smulLC c (p :: ps) = (p.1, c * p.2) :: smulLC c ps := rfl
    rw [h1, coeff_cons, coeff_cons, ih, mul_add, mul_ite, mul_zero]

theorem exists_mem_of_coeff_ne_zero {l : LinComb} {m : Mono}
    (h : coeff l m ≠ 0) : ∃ c, (m, c) ∈ l := by
  induction l with
  | nil => simp [coeff] at h
  | cons p ps ih =>
    by_cases hp : p.1 = m
    · exact ⟨p.2, by simp [← hp]⟩
    · rw [coeff_cons, if_neg hp, zero_add] at h
      obtain ⟨c, hc⟩ := ih h
      exact ⟨c, List.mem_cons_of_mem p hc⟩

/-! Lemmas about the inversion count. -/

theorem cnt_nil (k : Nat → Int) (a : Nat) : cnt k a [] = 0 := rfl

theorem cnt_append (k : Nat → Int) (a : Nat) (y z : Mono) :
    cnt k a (y ++ z) = cnt k a y + cnt k a z := by
  simp [cnt]

theorem cnt_singleton (k : Nat → Int) (a b : Nat) :
    cnt k a [b] = if k b < k a then 1 else 0 := by
  unfold cnt
  by_cases h : k b < k a <;> simp [h]

theorem cnt_eq_zero {k : Nat → Int} {a : Nat} {y : Mono}
    (h : ∀ b ∈ y, ¬ k b < k a) : cnt k a y = 0 := by
  unfold cnt
  rw [List.filter_eq_nil_iff.mpr (by intro b hb; simpa using h b hb)]
  rfl

theorem cnt_le_length (k : Nat → Int) (a : Nat) (y : Mono) :
    cnt k a y ≤ y.length :=
  List.length_filter_le _ y

theorem invc_nil_left (k : Nat → Int) (y : Mono) : invc k [] y = 0 := rfl

theorem invc_cons_left (k : Nat → Int) (a : Nat) (x y : Mono) :
    invc k (a :: x) y = cnt k a y + invc k x y := by
  simp [invc]

theorem invc_append_left (k : Nat → Int) (x1 x2 y : Mono) :
    invc k (x1 ++ x2) y = invc k x1 y + invc k x2 y := by
  simp [invc]

theorem invc_singleton_left (k : Nat → Int) (a : Nat) (y : Mono) :
    invc k [a] y = cnt k a y := by
  simp [invc]

theorem invc_append_right (k : Nat → Int) (x y z : Mono) :
    invc k x (y ++ z) = invc k x y + invc k x z := by
  induction x with
  | nil => rfl
  | cons a xs ih =>
    rw [invc_cons_left, invc_cons_left, invc_cons_left, cnt_append, ih]
    ring

theorem invc_perm_left (k : Nat → Int) {x x' : Mono} (h : List.Perm x x')
    (y : Mono) : invc k x y = invc k x' y := by
  unfold invc
  exact List.Perm.sum_eq (h.map _)

theorem invc_eq_zero {k : Nat → Int} {x y : Mono}
    (h : ∀ a ∈ x, ∀ b ∈ y, ¬ k b < k a) : invc k x y = 0 := by
  induction x with
  | nil => rfl
  | cons a xs ih =>
    rw [invc_cons_left, cnt_eq_zero (h a (by simp)),
      ih (fun a' ha' => h a' (List.mem_cons_of_mem a ha'))]

theorem invc_le (k : Nat → Int) (x y : Mono) :
    invc k x y ≤ x.length * y.length := by
  induction x with
  | nil => simp [invc_nil_left]
  | cons a xs ih =>
    rw [invc_cons_left]
    have := cnt_le_length k a y
    calc cnt k a y + invc k xs y ≤ y.length + xs.length * y.length := by
          exact Nat.add_le_add this ih
    _ = (a :: xs).length * y.length := by simp [List.length_cons]; ring

theorem invc_le_cons_right (k : Nat → Int) (x : Mono) (b : Nat) (y : Mono) :
    invc k x y ≤ invc k x (b :: y) := by
  have h : (b :: y) = [b] ++ y := rfl
  rw [h, invc_append_right]
  omega

/-! Lemmas about the bilinear extensions. -/

theorem rowF_total {f : Mono → Mono → Option LinComb} {Q : Mono → Mono → Prop}
    (p : Mono × Int) :
    ∀ b : LinComb,
      (∀ q ∈ b, ∃ r, f p.1 q.1 = some r ∧ ∀ s ∈ r, Q q.1 s.1) →
      ∃ r, rowF f p b = some r ∧ ∀ s ∈ r, ∃ q ∈ b, Q q.1 s.1 := by
  intro b
  induction b with
  | nil => intro _; exact ⟨[], rfl, by simp⟩
  | cons q qs ih =>
    intro h
    obtain ⟨rq, hq, hQq⟩ := h q (by simp)
    obtain ⟨rest, hrest, hQr⟩ :=
      ih (fun q2 hq2 => h q2 (List.mem_cons_of_mem q hq2))
    refine ⟨smulLC (p.2 * q.2) rq ++ rest, ?_, ?_⟩
    · simp only [rowF]
      rw [hq, hrest]
      rfl
    · intro s hs
      rcases List.mem_append.mp hs with h1 | h2
      · obtain ⟨s0, hs0, hseq⟩ := List.mem_map.mp h1
        refine ⟨q, by simp, ?_⟩
        rw [← hseq]
        exact hQq s0 hs0
      · obtain ⟨q2, hq2, hQ⟩ := hQr s h2
        exact ⟨q2, List.mem_cons_of_mem q hq2, hQ⟩

theorem pairsF_total {f : Mono → Mono → Option LinComb}
    {Q : Mono → Mono → Mono → Prop} :
    ∀ a b : LinComb,
      (∀ p ∈ a, ∀ q ∈ b, ∃ r, f p.1 q.1 = some r ∧ ∀ s ∈ r, Q p.1 q.1 s.1) →
      ∃ r, pairsF f a b = some r ∧
        ∀ s ∈ r, ∃ p ∈ a, ∃ q ∈ b, Q p.1 q.1 s.1 := by
  intro a
  induction a with
  | nil => intro b _; exact ⟨[], rfl, by simp⟩
  | cons p ps ih =>
    intro b h
    obtain ⟨rp, hp, hQp⟩ := rowF_total p b (fun q hq => h p (by simp) q hq)
    obtain ⟨rest, hrest, hQr⟩ :=
      ih b (fun p2 hp2 q hq => h p2 (List.mem_cons_of_mem p hp2) q hq)
    refine ⟨rp ++ rest, ?_, ?_⟩
    · simp only [pairsF]
      rw [hp, hrest]
      rfl
    · intro s hs
      rcases List.mem_append.mp hs with h1 | h2
      · obtain ⟨q, hqb, hQ⟩ := hQp s h1
        exact ⟨p, by simp, q, hqb, hQ⟩
      · obtain ⟨p2, hp2, q, hq, hQ⟩ := hQr s h2
        exact ⟨p2, List.mem_cons_of_mem p hp2, q, hq, hQ⟩

theorem rowF_mono {f g : Mono → Mono → Option LinComb}
    (hfg : ∀ m1 m2 r, f m1 m2 = some r → g m1 m2 = some r) (p : Mono × Int) :
    ∀ b r, rowF f p b = some r → rowF g p b = some r := by
  intro b
  induction b with
  | nil => intro r h; exact h
  | cons q qs ih =>
    intro r h
    simp only [rowF] at h ⊢
    cases hf : f p.1 q.1 with
    | none => rw [hf] at h; simp at h
    | some rq =>
      rw [hf] at h
      cases hr : rowF f p qs with
      | none => rw [hr] at h; simp at h
      | some rest =>
        rw [hr] at h
        rw [hfg _ _ _ hf, ih rest hr]
        exact h

theorem pairsF_mono {f g : Mono → Mono → Option LinComb}
    (hfg : ∀ m1 m2 r, f m1 m2 = some r → g m1 m2 = some r) :
    ∀ a b r, pairsF f a b = some r → pairsF g a b = some r := by
  intro a
  induction a with
  | nil => intro b r h; exact h
  | cons p ps ih =>
    intro b r h
    simp only [pairsF] at h ⊢
    cases hp : rowF f p b with
    | none => rw [hp] at h; simp at h
    | some rp =>
      rw [hp] at h
      cases hr : pairsF f ps b with
      | none => rw [hr] at h; simp at h
      | some rest =>
        rw [hr] at h
        rw [rowF_mono hfg p b rp hp, ih b rest hr]
        exact h

theorem rowF_eq_rowT {f : Mono → Mono → Option LinComb}
    {g : Mono → Mono → LinComb} (p : Mono × Int) :
    ∀ b : LinComb, (∀ q ∈ b, f p.1 q.1 = some (g p.1 q.1)) →
      rowF f p b = some (rowT g p b) := by
  intro b
  induction b with
  | nil => intro _; rfl
  | cons q qs ih =>
    intro h
    simp only [rowF, rowT]
    rw [h q (by simp), ih (fun q2 hq2 => h q2 (List.mem_cons_of_mem q hq2))]
    rfl

theorem pairsF_eq_pairsT {f : Mono → Mono → Option LinComb}
    {g : Mono → Mono → LinComb} :
    ∀ a b : LinComb, (∀ p ∈ a, ∀ q ∈ b, f p.1 q.1 = some (g p.1 q.1)) →
      pairsF f a b = some (pairsT g a b) := by
  intro a
  induction a with
  | nil => intro b _; rfl
  | cons p ps ih =>
    intro b h
    simp only [pairsF, pairsT]
    rw [rowF_eq_rowT p b (fun q hq => h p (by simp) q hq),
      ih b (fun p2 hp2 q hq => h p2 (List.mem_cons_of_mem p hp2) q hq)]
    rfl

theorem mem_rowT {g : Mono → Mono → LinComb} {p : Mono × Int} {s : Mono × Int} :
    ∀ {b : LinComb}, s ∈ rowT g p b →
      ∃ q ∈ b, ∃ c, (s.1, c) ∈ g p.1 q.1 := by
  intro b
  induction b with
  | nil => intro h; simp [rowT] at h
  | cons q qs ih =>
    intro hs
    rcases List.mem_append.mp hs with h1 | h2
    · obtain ⟨s0, hs0, hseq⟩ := List.mem_map.mp h1
      refine ⟨q, by simp, s0.2, ?_⟩
      rw [← hseq]
      exact hs0
    · obtain ⟨q2, hq2, c, hc⟩ := ih h2
      exact ⟨q2, List.mem_cons_of_mem q hq2, c, hc⟩

theorem mem_pairsT {g : Mono → Mono → LinComb} {s : Mono × Int} :
    ∀ {a b : LinComb}, s ∈ pairsT g a b →
      ∃ p ∈ a, ∃ q ∈ b, ∃ c, (s.1, c) ∈ g p.1 q.1 := by
  intro a
  induction a with
  | nil => intro b h; simp [pairsT] at h
  | cons p ps ih =>
    intro b hs
    rcases List.mem_append.mp hs with h1 | h2
    · obtain ⟨q, hq, c, hc⟩ := mem_rowT h1
      exact ⟨p, by simp, q, hq, c, hc⟩
    · obtain ⟨p2, hp2, q, hq, c, hc⟩ := ih h2
      exact ⟨p2, List.mem_cons_of_mem p hp2, q, hq, c, hc⟩

/-! Unfolding equations of the fuelled engine. -/

theorem pobF_succ_nil_left (L : LieData) (f : Nat) (y : Mono) :
    pobF L (f + 1) [] y = some [(y, 1)] := by
  simp [pobF]

theorem pobF_succ_nil_right (L : LieData) (f : Nat) (x : Mono) :
    pobF L (f + 1) x [] = some [(x, 1)] := by
  cases x with
  | nil => simp [pobF]
  | cons a xs => simp [pobF]

theorem pobF_succ_le (L : LieData) (f : Nat) (x y : Mono)
    (hx : x ≠ []) (hy : y ≠ [])
    (hcmp : L.basis_key (x.getLast hx) ≤ L.basis_key (y.head hy)) :
    pobF L (f + 1) x y = some [(merge L.basis_key x y, 1)] := by
  simp only [pobF]
  rw [dif_neg hx, dif_neg hy, if_pos hcmp]

theorem pobF_succ_inv (L : LieData) (f : Nat) (x y : Mono)
    (hx : x ≠ []) (hy : y ≠ [])
    (hcmp : ¬ L.basis_key (x.getLast hx) ≤ L.basis_key (y.head hy)) :
    pobF L (f + 1) x y =
      (pairsF (pobF L f) [(x.dropLast, 1)]
          (corrOf L (x.getLast hx) (y.head hy))).bind
        fun t1 => pairsF (pobF L f) t1 [(y.tail, 1)] := by
  simp only [pobF]
  rw [dif_neg hx, dif_neg hy, if_neg hcmp]

theorem pobF_mono (L : LieData) :
    ∀ fuel fuel2 x y r, fuel ≤ fuel2 → pobF L fuel x y = some r →
      pobF L fuel2 x y = some r := by
  intro fuel
  induction fuel with
  | zero => intro fuel2 x y r _ h; simp [pobF] at h
  | succ f ih =>
    intro fuel2 x y r hle h
    obtain ⟨f2, rfl⟩ : ∃ f2, fuel2 = f2 + 1 := ⟨fuel2 - 1, by omega⟩
    have hff : f ≤ f2 := by omega
    by_cases hxe : x = []
    · subst hxe
      rw [pobF_succ_nil_left] at h ⊢
      exact h
    by_cases hye : y = []
    · subst hye
      rw [pobF_succ_nil_right] at h ⊢
      exact h
    by_cases hcmp : L.basis_key (x.getLast hxe) ≤ L.basis_key (y.head hye)
    · rw [pobF_succ_le L f x y hxe hye hcmp] at h
      rw [pobF_succ_le L f2 x y hxe hye hcmp]
      exact h
    · rw [pobF_succ_inv L f x y hxe hye hcmp] at h
      rw [pobF_succ_inv L f2 x y hxe hye hcmp]
      cases ht1 : pairsF (pobF L f) [(x.dropLast, 1)]
          (corrOf L (x.getLast hxe) (y.head hye)) with
      | none => rw [ht1] at h; simp at h
      | some t1 =>
        rw [ht1] at h
        rw [pairsF_mono (fun m1 m2 r2 => ih f2 m1 m2 r2 hff) _ _ _ ht1]
        simp only [Option.some_bind] at h ⊢
        exact pairsF_mono (fun m1 m2 r2 => ih f2 m1 m2 r2 hff) _ _ _ h

theorem pobF_agree (L : LieData) {f1 f2 : Nat} {x y : Mono} {r1 r2 : LinComb}
    (h1 : pobF L f1 x y = some r1) (h2 : pobF L f2 x y = some r2) : r1 = r2 := by
  rcases le_total f1 f2 with h | h
  · have := pobF_mono L f1 f2 x y r1 h h1
    rw [this] at h2
    exact Option.some.inj h2
  · have := pobF_mono L f2 f1 x y r2 h h2
    rw [this] at h1
    exact (Option.some.inj h1).symm

/-! The measure strictly decreases along the recursive calls of the
inversion branch. -/

theorem phi_call1 {k : Nat → Int} {D : Nat} {x y : Mono}
    (hxe : x ≠ []) (hye : y ≠ []) (hx : canonical k x)
    (hkl : k (y.head hye) < k (x.getLast hxe))
    (hD : x.length + y.length ≤ D)
    (q : Mono) (hq : q = [y.head hye, x.getLast hxe] ∨ q.length = 1) :
    phiM k D x.dropLast q + 1 ≤ phiM k D x y := by
  have hxl : 1 ≤ x.length := List.length_pos.mpr hxe
  have hyl : 1 ≤ y.length := List.length_pos.mpr hye
  have hn1 : x.dropLast.length + 1 = x.length := by
    rw [List.length_dropLast]; omega
  have hD1 : 1 ≤ D := by omega
  have hxD : x.dropLast.length ≤ D := by omega
  unfold phiM
  rcases hq with hq | hq
  · subst hq
    by_cases hy2 : 2 ≤ y.length
    · have hi : invc k x.dropLast [y.head hye, x.getLast hxe] ≤ D * D := by
        have h1 := invc_le k x.dropLast [y.head hye, x.getLast hxe]
        have h2 : x.dropLast.length * 2 ≤ D * D :=
          Nat.mul_le_mul hxD (by omega)
        simpa using le_trans (by simpa using h1) h2
      have hmul : (x.dropLast.length + 2 + 1) * (D * D + 1) ≤
          (x.length + y.length) * (D * D + 1) :=
        Nat.mul_le_mul_right _ (by omega)
      have hexp : (x.dropLast.length + 2 + 1) * (D * D + 1) =
          (x.dropLast.length + 2) * (D * D + 1) + (D * D + 1) := by ring
      have hq2 : ([y.head hye, x.getLast hxe] : Mono).length = 2 := rfl
      rw [hq2]
      linarith
    · have hyl1 : y.length = 1 := by omega
      have htl : y.tail = [] :=
        List.eq_nil_of_length_eq_zero (by rw [List.length_tail]; omega)
      have hyeq : y = [y.head hye] := by
        conv_lhs => rw [eq_head_tail hye]
        rw [htl]
      have hzero : invc k x.dropLast [x.getLast hxe] = 0 := by
        refine invc_eq_zero ?_
        intro a ha b hb
        rcases List.mem_singleton.mp hb with rfl
        exact not_lt.mpr (le_getLast_of_mem_dropLast hx hxe a ha)
      have hi : invc k x.dropLast [y.head hye, x.getLast hxe] =
          invc k x.dropLast [y.head hye] := by
        have h2 : ([y.head hye, x.getLast hxe] : Mono) =
            [y.head hye] ++ [x.getLast hxe] := rfl
        rw [h2, invc_append_right, hzero]
        omega
      have hI : invc k x y = invc k x.dropLast [y.head hye] + 1 := by
        conv_lhs => rw [eq_dropLast_getLast hxe, hyeq]
        rw [invc_append_left, invc_singleton_left, cnt_singleton,
          if_pos hkl]
      have hq2 : ([y.head hye, x.getLast hxe] : Mono).length = 2 := rfl
      rw [hq2, hi, hI]
      have hdeq : x.dropLast.length + 2 = x.length + y.length := by omega
      rw [hdeq]
      exact le_of_eq (by ring)
  · obtain ⟨t, rfl⟩ := List.length_eq_one.mp hq
    have hi : invc k x.dropLast [t] + 1 ≤ D * D + 1 := by
      have h1 := invc_le k x.dropLast [t]
      have h2 : x.dropLast.length * 1 ≤ D * D :=
        Nat.mul_le_mul hxD hD1
      simp only [List.length_singleton] at h1
      omega
    have hmul : (x.dropLast.length + 1 + 1) * (D * D + 1) ≤
        (x.length + y.length) * (D * D + 1) :=
      Nat.mul_le_mul_right _ (by omega)
    have hexp : (x.dropLast.length + 1 + 1) * (D * D + 1) =
        (x.dropLast.length + 1) * (D * D + 1) + (D * D + 1) := by ring
    have hq1 : ([t] : Mono).length = 1 := rfl
    rw [hq1]
    linarith

theorem phi_call2 {k : Nat → Int} {D : Nat} {x y : Mono}
    (hxe : x ≠ []) (hye : y ≠ []) (hx : canonical k x) (hy : canonical k y)
    (hkl : k (y.head hye) < k (x.getLast hxe))
    (hD : x.length + y.length ≤ D)
    (m : Mono) (hml : m.length ≤ x.length + 1)
    (hmp : m.length = x.length + 1 →
      List.Perm m (x.dropLast ++ [y.head hye, x.getLast hxe])) :
    phiM k D m y.tail + 1 ≤ phiM k D x y := by
  have hxl : 1 ≤ x.length := List.length_pos.mpr hxe
  have hyl : 1 ≤ y.length := List.length_pos.mpr hye
  have hyt : y.tail.length + 1 = y.length := by
    rw [List.length_tail]; omega
  unfold phiM
  by_cases hmx : m.length ≤ x.length
  · have hi : invc k m y.tail + 1 ≤ D * D + 1 := by
      have h1 := invc_le k m y.tail
      have h2 : m.length * y.tail.length ≤ D * D :=
        Nat.mul_le_mul (by omega) (by omega)
      omega
    have hmul : (m.length + y.tail.length + 1) * (D * D + 1) ≤
        (x.length + y.length) * (D * D + 1) :=
      Nat.mul_le_mul_right _ (by omega)
    have hexp : (m.length + y.tail.length + 1) * (D * D + 1) =
        (m.length + y.tail.length) * (D * D + 1) + (D * D + 1) := by ring
    linarith
  · have hmlen : m.length = x.length + 1 := by omega
    have hperm := hmp hmlen
    have hcnt0 : cnt k (y.head hye) y.tail = 0 := by
      refine cnt_eq_zero ?_
      intro b hb
      exact not_lt.mpr (head_le_of_mem_tail hy hye b hb)
    have hi : invc k m y.tail =
        invc k x.dropLast y.tail + cnt k (x.getLast hxe) y.tail := by
      rw [invc_perm_left k hperm, invc_append_left]
      have h2 : ([y.head hye, x.getLast hxe] : Mono) =
          [y.head hye] ++ [x.getLast hxe] := rfl
      rw [h2, invc_append_left, invc_singleton_left, invc_singleton_left,
        hcnt0]
      ring
    have hI : invc k x.dropLast y.tail + cnt k (x.getLast hxe) y.tail + 1 ≤
        invc k x y := by
      conv_rhs => rw [eq_dropLast_getLast hxe, eq_head_tail hye]
      rw [invc_append_left, invc_singleton_left]
      have h2 : (y.head hye :: y.tail : Mono) = [y.head hye] ++ y.tail := rfl
      rw [h2, invc_append_right, cnt_append, cnt_singleton, if_pos hkl]
      have h3 := Nat.zero_le (invc k x.dropLast [y.head hye])
      omega
    have hdeq : m.length + y.tail.length = x.length + y.length := by omega
    rw [hdeq, hi]
    omega

/-- Reassembling the two decompositions of the operands after one
application of the commutation identity preserves the multiset of
letters. -/
theorem perm_reassemble (x1 : Mono) (lead trail : Nat) (yt : Mono) :
    List.Perm ((x1 ++ [lead, trail]) ++ yt) ((x1 ++ [trail]) ++ (lead :: yt)) := by
  have h1 : (x1 ++ [lead, trail]) ++ yt = x1 ++ (lead :: trail :: yt) := by simp
  have h2 : (x1 ++ [trail]) ++ (lead :: yt) = x1 ++ (trail :: lead :: yt) := by
    simp
  rw [h1, h2]
  exact List.Perm.append_left x1 (List.Perm.swap trail lead yt)

/-- Invariant of the results of the rewriting engine: every monomial of
the result is canonical, its degree is at most the sum of the degrees
of the operands, and a monomial of maximal degree is a permutation of
the concatenation of the operands. -/
def ResultOK (k : Nat → Int) (x y : Mono) (r : LinComb) : Prop :=
  ∀ p ∈ r, canonical k p.1 ∧ p.1.length ≤ x.length + y.length ∧
    (p.1.length = x.length + y.length → List.Perm p.1 (x ++ y))

/-- Totality of the fuelled engine: on canonical operands whose
measure is below the fuel, `pobF` succeeds and its result satisfies the
filtration invariant. -/
theorem pobF_total (L : LieData) (D : Nat) :
    ∀ fuel x y, canonical L.basis_key x → canonical L.basis_key y →
      x.length + y.length ≤ D →
      phiM L.basis_key D x y + 1 ≤ fuel →
      ∃ r, pobF L fuel x y = some r ∧ ResultOK L.basis_key x y r := by
  intro fuel
  induction fuel with
  | zero => intro x y _ _ _ hf; omega
  | succ f ih =>
    intro x y hx hy hD hf
    by_cases hxe : x = []
    · subst hxe
      refine ⟨[(y, 1)], pobF_succ_nil_left L f y, ?_⟩
      intro p hp
      rcases List.mem_singleton.mp hp with rfl
      exact ⟨hy, by simp, fun _ => by simp⟩
    by_cases hye : y = []
    · subst hye
      refine ⟨[(x, 1)], pobF_succ_nil_right L f x, ?_⟩
      intro p hp
      rcases List.mem_singleton.mp hp with rfl
      exact ⟨hx, by simp, fun _ => by simp⟩
    by_cases hcmp : L.basis_key (x.getLast hxe) ≤ L.basis_key (y.head hye)
    · refine ⟨[(merge L.basis_key x y, 1)],
        pobF_succ_le L f x y hxe hye hcmp, ?_⟩
      intro p hp
      rcases List.mem_singleton.mp hp with rfl
      exact ⟨merge_sorted _ x y hx hy, by simp [merge_length],
        fun _ => merge_perm _ x y⟩
    · have hkl : L.basis_key (y.head hye) < L.basis_key (x.getLast hxe) :=
        lt_of_not_le hcmp
      have hx1 : canonical L.basis_key x.dropLast := canonical_dropLast hx
      have hyt : canonical L.basis_key y.tail := canonical_tail hy
      have hxl : 1 ≤ x.length := List.length_pos.mpr hxe
      have hyl : 1 ≤ y.length := List.length_pos.mpr hye
      have hn1 : x.dropLast.length + 1 = x.length := by
        rw [List.length_dropLast]; omega
      have hyt1 : y.tail.length + 1 = y.length := by
        rw [List.length_tail]; omega
      have hf2 : phiM L.basis_key D x y ≤ f := by omega
      have hcor : ∀ q ∈ corrOf L (x.getLast hxe) (y.head hye),
          canonical L.basis_key q.1 ∧
          (q.1 = [y.head hye, x.getLast hxe] ∨ q.1.length = 1) := by
        intro q hq
        unfold corrOf at hq
        rcases List.mem_append.mp hq with h1 | h2
        · obtain ⟨p0, _, hpe⟩ := List.mem_map.mp h1
          rw [← hpe]
          exact ⟨canonical_singleton _ _, Or.inr rfl⟩
        · rcases List.mem_singleton.mp h2 with rfl
          have hpair : merge L.basis_key [y.head hye] [x.getLast hxe] =
              [y.head hye, x.getLast hxe] := merge_pair _ (le_of_lt hkl)
          constructor
          · show canonical L.basis_key (merge L.basis_key _ _)
            rw [hpair]
            exact canonical_pair (le_of_lt hkl)
          · exact Or.inl hpair
      obtain ⟨t1, ht1, hmem1⟩ :=
        pairsF_total (f := pobF L f)
          (Q := fun pm qm sm => canonical L.basis_key sm ∧
            sm.length ≤ pm.length + qm.length ∧
            (sm.length = pm.length + qm.length → List.Perm sm (pm ++ qm)))
          [(x.dropLast, (1 : Int))] (corrOf L (x.getLast hxe) (y.head hye))
          (by
            intro p hp q hq
            rcases List.mem_singleton.mp hp with rfl
            obtain ⟨hqc, hqs⟩ := hcor q hq
            have hql : q.1.length ≤ 2 := by
              rcases hqs with h | h
              · rw [h]; rfl
              · omega
            have hdeg : x.dropLast.length + q.1.length ≤ D := by omega
            have hfq : phiM L.basis_key D x.dropLast q.1 + 1 ≤ f :=
              le_trans (phi_call1 hxe hye hx hkl hD q.1 hqs) hf2
            obtain ⟨r, hr, hOK⟩ := ih x.dropLast q.1 hx1 hqc hdeg hfq
            exact ⟨r, hr, fun s hs => hOK s hs⟩)
      have hstep2 : ∀ s ∈ t1, canonical L.basis_key s.1 ∧
          s.1.length ≤ x.length + 1 ∧
          (s.1.length = x.length + 1 →
            List.Perm s.1 (x.dropLast ++ [y.head hye, x.getLast hxe])) := by
        intro s hs
        obtain ⟨p, hp, q, hq, hQ⟩ := hmem1 s hs
        rcases List.mem_singleton.mp hp with rfl
        dsimp only at hQ
        obtain ⟨_, hqs⟩ := hcor q hq
        refine ⟨hQ.1, ?_, ?_⟩
        · rcases hqs with h | h
          · have h2 : q.1.length = 2 := by rw [h]; rfl
            have := hQ.2.1
            omega
          · have := hQ.2.1
            omega
        · intro hlen
          rcases hqs with h | h
          · have hq2 : q.1.length = 2 := by rw [h]; rfl
            have hp2 := hQ.2.2 (by omega)
            rw [h] at hp2
            exact hp2
          · have := hQ.2.1
            omega
      obtain ⟨t2, ht2, hmem2⟩ :=
        pairsF_total (f := pobF L f)
          (Q := fun pm qm sm => canonical L.basis_key sm ∧
            sm.length ≤ pm.length + qm.length ∧
            (sm.length = pm.length + qm.length → List.Perm sm (pm ++ qm)))
          t1 [(y.tail, (1 : Int))]
          (by
            intro p hp q hq
            rcases List.mem_singleton.mp hq with rfl
            obtain ⟨hpc, hpl, hpp⟩ := hstep2 p hp
            have hdeg : p.1.length + y.tail.length ≤ D := by omega
            have hfq : phiM L.basis_key D p.1 y.tail + 1 ≤ f :=
              le_trans (phi_call2 hxe hye hx hy hkl hD p.1 hpl hpp) hf2
            obtain ⟨r, hr, hOK⟩ := ih p.1 y.tail hpc hyt hdeg hfq
            exact ⟨r, hr, fun s hs => hOK s hs⟩)
      refine ⟨t2, ?_, ?_⟩
      · rw [pobF_succ_inv L f x y hxe hye hcmp, ht1]
        simp only [Option.some_bind]
        exact ht2
      · intro p2 hp2
        obtain ⟨s, hs, q, hq, hQ⟩ := hmem2 p2 hp2
        rcases List.mem_singleton.mp hq with rfl
        dsimp only at hQ
        obtain ⟨hsc, hsl, hsp⟩ := hstep2 s hs
        have hql := hQ.2.1
        refine ⟨hQ.1, by omega, ?_⟩
        intro hlen
        have hslen : s.1.length = x.length + 1 := by omega
        have h1 : List.Perm p2.1 (s.1 ++ y.tail) := hQ.2.2 (by omega)
        have h2 := hsp hslen
        have h3 : List.Perm (s.1 ++ y.tail)
            ((x.dropLast ++ [y.head hye, x.getLast hxe]) ++ y.tail) :=
          List.Perm.append_right y.tail h2
        have h4 := perm_reassemble x.dropLast (y.head hye) (x.getLast hxe)
          y.tail
        have h5 : (x.dropLast ++ [x.getLast hxe]) ++
            (y.head hye :: y.tail) = x ++ y := by
          rw [← eq_dropLast_getLast hxe, ← eq_head_tail hye]
        exact (h1.trans h3).trans (h5 ▸ h4)

/-! Consequences of totality for the fuel-free product function. -/

theorem pobFuel_pos (x y : Mono) : 1 ≤ pobFuel x y := by
  unfold pobFuel
  exact Nat.one_le_iff_ne_zero.mpr (Nat.mul_ne_zero (by omega) (by omega))

theorem pobFuel_succ (x y : Mono) : ∃ f, pobFuel x y = f + 1 :=
  ⟨pobFuel x y - 1, by have := pobFuel_pos x y; omega⟩

theorem phiM_lt_pobFuel (k : Nat → Int) (x y : Mono) :
    phiM k (x.length + y.length) x y + 1 ≤ pobFuel x y := by
  unfold phiM pobFuel
  have h1 := invc_le k x y
  have h2 : x.length * y.length ≤
      (x.length + y.length) * (x.length + y.length) :=
    Nat.mul_le_mul (by omega) (by omega)
  have h3 : (x.length + y.length + 1) *
      ((x.length + y.length) * (x.length + y.length) + 1) =
      (x.length + y.length) *
        ((x.length + y.length) * (x.length + y.length) + 1) +
      ((x.length + y.length) * (x.length + y.length) + 1) := by ring
  linarith

theorem product_on_basis_total (L : LieData) {x y : Mono}
    (hx : canonical L.basis_key x) (hy : canonical L.basis_key y) :
    pobF L (pobFuel x y) x y = some (product_on_basis L x y) := by
  obtain ⟨r, hr, _⟩ := pobF_total L (x.length + y.length) (pobFuel x y) x y
    hx hy (le_refl _) (phiM_lt_pobFuel L.basis_key x y)
  rw [hr]
  unfold product_on_basis
  rw [hr]
  rfl

theorem pobF_eq_product (L : LieData) {f : Nat} {x y : Mono} {r : LinComb}
    (hx : canonical L.basis_key x) (hy : canonical L.basis_key y)
    (h : pobF L f x y = some r) : product_on_basis L x y = r :=
  pobF_agree L (product_on_basis_total L hx hy) h

theorem product_on_basis_invariant (L : LieData) {x y : Mono}
    (hx : canonical L.basis_key x) (hy : canonical L.basis_key y) :
    ResultOK L.basis_key x y (product_on_basis L x y) := by
  obtain ⟨r, hr, hOK⟩ := pobF_total L (x.length + y.length) (pobFuel x y) x y
    hx hy (le_refl _) (phiM_lt_pobFuel L.basis_key x y)
  rw [pobF_eq_product L hx hy hr]
  exact hOK

theorem head_le_of_mem {k : Nat → Int} {y : Mono}
    (hy : canonical k y) (hne : y ≠ []) :
    ∀ b ∈ y, k (y.head hne) ≤ k b := by
  intro b hb
  have h2 : canonical k (y.head hne :: y.tail) := by
    rw [← eq_head_tail hne]
    exact hy
  rw [eq_head_tail hne] at hb
  rcases List.mem_cons.mp hb with rfl | h3
  · exact le_refl _
  · exact (canonical_cons h2).2 b h3

/-- The in-order branch of the engine: when the trailing key of x is at
most the leading key of y, the product is the single concatenated
monomial with coefficient 1. -/
theorem pob_ordered (L : LieData) {x y : Mono}
    (hx : canonical L.basis_key x) (hy : canonical L.basis_key y)
    (hxe : x ≠ []) (hye : y ≠ [])
    (hle : L.basis_key (x.getLast hxe) ≤ L.basis_key (y.head hye)) :
    product_on_basis L x y = [(x ++ y, 1)] := by
  obtain ⟨f, hFeq⟩ := pobFuel_succ x y
  unfold product_on_basis
  rw [hFeq, pobF_succ_le L f x y hxe hye hle]
  have hmerge : merge L.basis_key x y = x ++ y := by
    refine merge_eq_append L.basis_key x y hx ?_
    intro a ha b hb
    calc L.basis_key a ≤ L.basis_key (x.getLast hxe) :=
          le_getLast_of_mem hx hxe a ha
    _ ≤ L.basis_key (y.head hye) := hle
    _ ≤ L.basis_key b := head_le_of_mem hy hye b hb
  rw [hmerge]
  rfl

/-- Left identity base case of the engine. -/
theorem pob_one_left (L : LieData) (a : Mono) :
    product_on_basis L one_basis a = [(a, 1)] := by
  obtain ⟨f, hFeq⟩ := pobFuel_succ one_basis a
  unfold product_on_basis
  rw [hFeq]
  rw [show (one_basis : Mono) = [] from rfl, pobF_succ_nil_left]
  rfl

/-- Right identity base case of the engine. -/
theorem pob_one_right (L : LieData) (a : Mono) :
    product_on_basis L a one_basis = [(a, 1)] := by
  obtain ⟨f, hFeq⟩ := pobFuel_succ a one_basis
  unfold product_on_basis
  rw [hFeq]
  rw [show (one_basis : Mono) = [] from rfl, pobF_succ_nil_right]
  rfl

/-- The inversion branch of the engine, expressed through the total
product: stripping the trailing generator of x and the leading
generator of y, the product is x-remainder times the correction term
times the y-remainder, where each multiplication is the bilinear
extension of the engine itself. -/
theorem pob_inversion (L : LieData) {x y : Mono}
    (hx : canonical L.basis_key x) (hy : canonical L.basis_key y)
    (hxe : x ≠ []) (hye : y ≠ [])
    (hkl : L.basis_key (y.head hye) < L.basis_key (x.getLast hxe)) :
    product_on_basis L x y =
      mulLC L (mulLC L [(x.dropLast, 1)]
        (corrOf L (x.getLast hxe) (y.head hye))) [(y.tail, 1)] := by
  have hcmp : ¬ L.basis_key (x.getLast hxe) ≤ L.basis_key (y.head hye) :=
    not_le.mpr hkl
  have hx1 : canonical L.basis_key x.dropLast := canonical_dropLast hx
  have hytc : canonical L.basis_key y.tail := canonical_tail hy
  have hxl : 1 ≤ x.length := List.length_pos.mpr hxe
  have hyl : 1 ≤ y.length := List.length_pos.mpr hye
  have hn1 : x.dropLast.length + 1 = x.length := by
    rw [List.length_dropLast]; omega
  have hyt1 : y.tail.length + 1 = y.length := by
    rw [List.length_tail]; omega
  obtain ⟨f, hFeq⟩ := pobFuel_succ x y
  have hF := phiM_lt_pobFuel L.basis_key x y
  rw [hFeq] at hF
  have hf2 : phiM L.basis_key (x.length + y.length) x y ≤ f := by omega
  have hcor : ∀ q ∈ corrOf L (x.getLast hxe) (y.head hye),
      canonical L.basis_key q.1 ∧
      (q.1 = [y.head hye, x.getLast hxe] ∨ q.1.length = 1) := by
    intro q hq
    unfold corrOf at hq
    rcases List.mem_append.mp hq with h1 | h2
    · obtain ⟨p0, _, hpe⟩ := List.mem_map.mp h1
      rw [← hpe]
      exact ⟨canonical_singleton _ _, Or.inr rfl⟩
    · rcases List.mem_singleton.mp h2 with rfl
      have hpair : merge L.basis_key [y.head hye] [x.getLast hxe] =
          [y.head hye, x.getLast hxe] := merge_pair _ (le_of_lt hkl)
      constructor
      · show canonical L.basis_key (merge L.basis_key _ _)
        rw [hpair]
        exact canonical_pair (le_of_lt hkl)
      · exact Or.inl hpair
  have hcall1 : ∀ q ∈ corrOf L (x.getLast hxe) (y.head hye),
      pobF L f x.dropLast q.1 =
        some (product_on_basis L x.dropLast q.1) := by
    intro q hq
    obtain ⟨hqc, hqs⟩ := hcor q hq
    have hql : q.1.length ≤ 2 := by
      rcases hqs with h | h
      · rw [h]; rfl
      · omega
    have hdeg : x.dropLast.length + q.1.length ≤ x.length + y.length := by
      omega
    have hfq : phiM L.basis_key (x.length + y.length) x.dropLast q.1 + 1 ≤
        f := le_trans (phi_call1 hxe hye hx hkl (le_refl _) q.1 hqs) hf2
    obtain ⟨r, hr, _⟩ := pobF_total L (x.length + y.length) f x.dropLast q.1
      hx1 hqc hdeg hfq
    rw [hr, pobF_eq_product L hx1 hqc hr]
  have hpairs1 : pairsF (pobF L f) [(x.dropLast, (1 : Int))]
      (corrOf L (x.getLast hxe) (y.head hye)) =
      some (mulLC L [(x.dropLast, 1)]
        (corrOf L (x.getLast hxe) (y.head hye))) := by
    refine pairsF_eq_pairsT _ _ ?_
    intro p hp q hq
    rcases List.mem_singleton.mp hp with rfl
    exact hcall1 q hq
  have hstep2 : ∀ s ∈ mulLC L [(x.dropLast, (1 : Int))]
      (corrOf L (x.getLast hxe) (y.head hye)),
      canonical L.basis_key s.1 ∧ s.1.length ≤ x.length + 1 ∧
      (s.1.length = x.length + 1 →
        List.Perm s.1 (x.dropLast ++ [y.head hye, x.getLast hxe])) := by
    intro s hs
    obtain ⟨p, hp, q, hq, c, hc⟩ := mem_pairsT hs
    rcases List.mem_singleton.mp hp with rfl
    obtain ⟨hqc, hqs⟩ := hcor q hq
    have hOK := product_on_basis_invariant L hx1 hqc (s.1, c) hc
    dsimp only at hOK
    refine ⟨hOK.1, ?_, ?_⟩
    · rcases hqs with h | h
      · have h2 : q.1.length = 2 := by rw [h]; rfl
        have := hOK.2.1
        omega
      · have := hOK.2.1
        omega
    · intro hlen
      rcases hqs with h | h
      · have hq2 : q.1.length = 2 := by rw [h]; rfl
        have hp2 := hOK.2.2 (by omega)
        rw [h] at hp2
        exact hp2
      · have := hOK.2.1
        omega
  have hpairs2 : pairsF (pobF L f)
      (mulLC L [(x.dropLast, (1 : Int))]
        (corrOf L (x.getLast hxe) (y.head hye))) [(y.tail, (1 : Int))] =
      some (mulLC L (mulLC L [(x.dropLast, 1)]
        (corrOf L (x.getLast hxe) (y.head hye))) [(y.tail, 1)]) := by
    refine pairsF_eq_pairsT _ _ ?_
    intro p hp q hq
    rcases List.mem_singleton.mp hq with rfl
    obtain ⟨hpc, hpl, hpp⟩ := hstep2 p hp
    have hdeg : p.1.length + y.tail.length ≤ x.length + y.length := by omega
    have hfq : phiM L.basis_key (x.length + y.length) p.1 y.tail + 1 ≤ f :=
      le_trans (phi_call2 hxe hye hx hy hkl (le_refl _) p.1 hpl hpp) hf2
    obtain ⟨r, hr, _⟩ := pobF_total L (x.length + y.length) f p.1 y.tail
      hpc hytc hdeg hfq
    rw [hr, pobF_eq_product L hpc hytc hr]
  unfold product_on_basis
  rw [hFeq, pobF_succ_inv L f x y hxe hye hcmp, hpairs1]
  simp only [Option.some_bind]
  rw [hpairs2]
  rfl

/-! Multiplying by the monomial 1 on either side, at the level of
coefficients. -/

theorem pob_nil_left (L : LieData) (a : Mono) :
    product_on_basis L [] a = [(a, 1)] :=
  pob_one_left L a

theorem pob_nil_right (L : LieData) (a : Mono) :
    product_on_basis L a [] = [(a, 1)] :=
  pob_one_right L a

theorem coeff_rowT_nil_left (L : LieData) :
    ∀ (b : LinComb) (m : Mono),
      coeff (rowT (product_on_basis L) (([] : Mono), (1 : Int)) b) m =
        coeff b m := by
  intro b
  induction b with
  | nil => intro m; rfl
  | cons q qs ih =>
    intro m
    show coeff (smulLC ((1 : Int) * q.2) (product_on_basis L [] q.1) ++
      rowT (product_on_basis L) ([], 1) qs) m = _
    rw [coeff_append, coeff_smulLC, pob_nil_left, ih, coeff_cons,
      coeff_cons, coeff_nil]
    by_cases h : q.1 = m <;> simp [h]

theorem coeff_mulLC_nil_left (L : LieData) (b : LinComb) (m : Mono) :
    coeff (mulLC L [(([] : Mono), 1)] b) m = coeff b m := by
  show coeff (rowT (product_on_basis L) ([], 1) b ++ ([] : LinComb)) m = _
  rw [coeff_append, coeff_nil, add_zero, coeff_rowT_nil_left]

theorem coeff_mulLC_nil_right (L : LieData) :
    ∀ (a : LinComb) (m : Mono),
      coeff (mulLC L a [(([] : Mono), 1)]) m = coeff a m := by
  intro a
  induction a with
  | nil => intro m; rfl
  | cons p ps ih =>
    intro m
    show coeff ((smulLC (p.2 * 1) (product_on_basis L p.1 []) ++
      ([] : LinComb)) ++ mulLC L ps [([], 1)]) m = _
    rw [coeff_append, coeff_append, coeff_smulLC, coeff_nil, add_zero,
      pob_nil_right, ih, coeff_cons, coeff_cons, coeff_nil]
    by_cases h : p.1 = m <;> simp [h]

/-! The claims. -/

/-- C1: for canonical non-identity monomials lhs, rhs whose trailing
key of lhs strictly exceeds the leading key of rhs, product_on_basis
equals the recursive form: (lhs with one copy of trail removed) times
the correction term (the bracket of trail and lead expressed as a
linear combination of single generators, plus the ordered monomial
lead * trail), and that result times (rhs with one copy of lead
removed); the multiplications are the bilinear extension of
product_on_basis itself. -/
theorem product_on_basis_inversion_step (L : LieData) (x y : Mono)
    (hx : canonical L.basis_key x) (hy : canonical L.basis_key y)
    (hxe : x ≠ []) (hye : y ≠ [])
    (hkl : L.basis_key (y.head hye) < L.basis_key (x.getLast hxe)) :
    product_on_basis L x y =
      mulLC L
        (mulLC L [(x.dropLast, 1)]
          ((L.bracket (x.getLast hxe) (y.head hye)).map
              (fun p => ([p.1], p.2)) ++
            [([y.head hye, x.getLast hxe], 1)]))
        [(y.tail, 1)] := by
  have h := pob_inversion L hx hy hxe hye hkl
  rw [h]
  unfold corrOf
  rw [merge_pair L.basis_key (le_of_lt hkl)]

theorem product_on_basis_inversion_step_witness :
    product_on_basis sl2 [1] [0] =
      mulLC sl2 (mulLC sl2 [([], 1)] [([2], -1), ([0, 1], 1)]) [([], 1)] :=
  (product_on_basis_inversion_step sl2 [1] [0] (by decide) (by decide)
    (by decide) (by decide) (by decide)).trans (by decide)

/-- C2: for distinct generators i, j with the key of i strictly above
the key of j, the difference of the two products of the single
generators is exactly the bracket returned by the oracle, as a linear
combination of single-generator monomials. -/
theorem product_antisymmetry_bracket (L : LieData) (i j : Nat)
    (hne : i ≠ j) (hk : L.basis_key j < L.basis_key i) :
    ∀ m : Mono,
      coeff (product_on_basis L [i] [j]) m -
        coeff (product_on_basis L [j] [i]) m =
      coeff ((L.bracket i j).map (fun p => ([p.1], p.2))) m := by
  intro m
  have h1 := pob_inversion L (x := [i]) (y := [j])
    (canonical_singleton _ _) (canonical_singleton _ _)
    (by simp) (by simp) (by simpa using hk)
  simp only [List.dropLast_single, List.tail_cons, List.getLast_singleton,
    List.head_cons] at h1
  have h2 := pob_ordered L (x := [j]) (y := [i])
    (canonical_singleton _ _) (canonical_singleton _ _)
    (by simp) (by simp) (by simpa using le_of_lt hk)
  have h3 : ([j] ++ [i] : Mono) = [j, i] := rfl
  rw [h3] at h2
  rw [h1, h2, coeff_mulLC_nil_right, coeff_mulLC_nil_left]
  unfold corrOf
  rw [merge_pair L.basis_key (le_of_lt hk), coeff_append]
  ring

theorem product_antisymmetry_bracket_witness :
    coeff (product_on_basis sl2 [2] [1]) [1] -
        coeff (product_on_basis sl2 [1] [2]) [1] =
      coeff ((sl2.bracket 2 1).map (fun p => ([p.1], p.2))) [1] :=
  product_antisymmetry_bracket sl2 2 1 (by decide) (by decide) [1]

/-- C3: the empty monomial one_basis is a two-sided identity of
product_on_basis: multiplying any monomial by it on either side gives
that monomial with coefficient 1. -/
theorem product_identity_law (L : LieData) (a : Mono) :
    product_on_basis L a one_basis = [(a, 1)] ∧
    product_on_basis L one_basis a = [(a, 1)] :=
  ⟨pob_one_right L a, pob_one_left L a⟩

/-- C4: for canonical non-identity monomials with the trailing key of
lhs at most the leading key of rhs (equality included), the product is
the single concatenated-and-merged monomial with coefficient 1; the
statement holds for every bracket oracle, so the bracket is never
consulted in this branch. -/
theorem product_ordered_merge (L : LieData) (x y : Mono)
    (hx : canonical L.basis_key x) (hy : canonical L.basis_key y)
    (hxe : x ≠ []) (hye : y ≠ [])
    (hle : L.basis_key (x.getLast hxe) ≤ L.basis_key (y.head hye)) :
    product_on_basis L x y = [(x ++ y, 1)] :=
  pob_ordered L hx hy hxe hye hle

theorem product_ordered_merge_witness :
    product_on_basis sl2 [0] [0, 1] = [([0, 0, 1], 1)] :=
  (product_ordered_merge sl2 [0] [0, 1] (by decide) (by decide)
    (by decide) (by decide) (by decide)).trans (by decide)

/-- C5: on canonical monomials the recursion of product_on_basis
terminates: the fuelled engine run at the computable bound pobFuel
returns a value, justified by the strictly decreasing lexicographic
measure (total degree, then number of out-of-order pairs, the latter
bounded below by zero). -/
theorem product_on_basis_terminates (L : LieData) (x y : Mono)
    (hx : canonical L.basis_key x) (hy : canonical L.basis_key y) :
    (pobF L (pobFuel x y) x y).isSome := by
  rw [product_on_basis_total L hx hy]
  rfl

theorem product_on_basis_terminates_witness :
    (pobF sl2 (pobFuel [2, 2] [1, 1]) [2, 2] [1, 1]).isSome :=
  product_on_basis_terminates sl2 [2, 2] [1, 1] (by decide) (by decide)

/-- C6: every monomial appearing with nonzero coefficient in a product
of canonical monomials has degree at most the sum of the degrees of
the operands, and degree_on_basis is the total exponent sum (the length
of the word). -/
theorem product_degree_filtration (L : LieData) (x y : Mono)
    (hx : canonical L.basis_key x) (hy : canonical L.basis_key y) :
    (∀ m : Mono, coeff (product_on_basis L x y) m ≠ 0 →
      degree_on_basis m ≤ degree_on_basis x + degree_on_basis y) ∧
    (∀ m : Mono, degree_on_basis m = m.length) := by
  refine ⟨?_, fun m => rfl⟩
  intro m hm
  obtain ⟨c, hc⟩ := exists_mem_of_coeff_ne_zero hm
  have h := product_on_basis_invariant L hx hy (m, c) hc
  exact h.2.1

theorem product_degree_filtration_witness :
    degree_on_basis [0, 1] ≤ degree_on_basis [1] + degree_on_basis [0] :=
  (product_degree_filtration sl2 [1] [0] (by decide) (by decide)).1
    [0, 1] (by decide)

/-- C7: in the concrete 3-dimensional Lie algebra with E = 0, F = 1,
H = 2 and brackets [E,F] = H, [H,E] = 2E, [H,F] = -2F under the order
E < F < H: F*E is E.F - H, the commutator of E and F is H, and H*F is
F.H - 2F, with exact coefficients. -/
theorem sl2_concrete_products :
    (∀ m : Mono, coeff (product_on_basis sl2 [1] [0]) m =
      coeff [([0, 1], 1), ([2], -1)] m) ∧
    (∀ m : Mono, coeff (product_on_basis sl2 [0] [1]) m -
        coeff (product_on_basis sl2 [1] [0]) m = coeff [([2], 1)] m) ∧
    (∀ m : Mono, coeff (product_on_basis sl2 [2] [1]) m =
      coeff [([1, 2], 1), ([1], -2)] m) := by
  have hFE : product_on_basis sl2 [1] [0] = [([2], -1), ([0, 1], 1)] := by
    decide
  have hEF : product_on_basis sl2 [0] [1] = [([0, 1], 1)] := by decide
  have hHF : product_on_basis sl2 [2] [1] = [([1], -2), ([1, 2], 1)] := by
    decide
  refine ⟨?_, ?_, ?_⟩
  · intro m
    rw [hFE]
    simp only [coeff_cons, coeff_nil]
    ring
  · intro m
    rw [hEF, hFE]
    simp only [coeff_cons, coeff_nil]
    by_cases h : ([2] : Mono) = m <;> simp [h]
  · intro m
    rw [hHF]
    simp only [coeff_cons, coeff_nil]
    ring

/-- C8: expressing a PBW element in the Lie algebra fails with a
reported error exactly when some monomial is not a single generator
(the inverse support map inv_supp is none exactly when the length
differs from 1, in particular on the identity monomial), while linear
combinations of single generators round-trip through the lift. -/
theorem pbw_lift_inverse_support :
    (∀ m : Mono, inv_supp m = none ↔ m.length ≠ 1) ∧
    inv_supp one_basis = none ∧
    (∀ l : LinComb, (retract l).isSome ↔ ∀ p ∈ l, p.1.length = 1) ∧
    (∀ x : List (Nat × Int), retract (lift x) = some x) := by
  refine ⟨?_, rfl, ?_, ?_⟩
  · intro m
    unfold inv_supp
    by_cases h : m.length ≠ 1 <;> simp [h]
  · intro l
    induction l with
    | nil => simp [retract]
    | cons p ps ih =>
      by_cases h : p.1.length = 1
      · have h2 : inv_supp p.1 = some p.1.headI := by
          unfold inv_supp
          simp [h]
        simp [retract, h2, ih, h]
      · have h2 : inv_supp p.1 = none := by
          unfold inv_supp
          simp [h]
        simp [retract, h2, h]
  · intro x
    induction x with
    | nil => rfl
    | cons p ps ih =>
      have h2 : inv_supp [p.1] = some p.1 := rfl
      show (((inv_supp [p.1]).map (fun g => (g, p.2))).bind fun q =>
        (retract (lift ps)).map fun qs => q :: qs) = _
      rw [h2, ih]
      rfl

theorem pbw_lift_inverse_support_witness :
    inv_supp [0, 1] = none ∧ retract (lift [(2, 5)]) = some [(2, 5)] :=
  ⟨(pbw_lift_inverse_support.1 [0, 1]).mpr (by decide),
    pbw_lift_inverse_support.2.2.2 [(2, 5)]⟩

/-- C9: the GroupAlgebra constructor validates eagerly: it errors when
G is neither a magma nor an additive magma, errors when R is not a
ring, and otherwise returns the externally built algebra of G over R;
an error means no algebra value is produced. -/
theorem GroupAlgebra_validates {α : Type} (alg : ParentData → RingData → α)
    (G : ParentData) (R : RingData) :
    (G.isMagma = false → G.isAdditiveMagma = false →
      GroupAlgebra alg G R =
        Except.error "is not a magma or additive magma") ∧
    ((G.isMagma = true ∨ G.isAdditiveMagma = true) → R.isRing = false →
      GroupAlgebra alg G R = Except.error "is not a ring") ∧
    ((G.isMagma = true ∨ G.isAdditiveMagma = true) → R.isRing = true →
      GroupAlgebra alg G R = Except.ok (alg G R)) := by
  unfold GroupAlgebra
  refine ⟨?_, ?_, ?_⟩
  · intro h1 h2
    simp [h1, h2]
  · intro h1 h2
    rcases h1 with h1 | h1 <;> simp [h1, h2]
  · intro h1 h2
    rcases h1 with h1 | h1 <;> simp [h1, h2]

theorem GroupAlgebra_validates_witness :
    GroupAlgebra (fun _ _ => (0 : Nat)) ⟨true, false⟩ ⟨false⟩ =
      Except.error "is not a ring" :=
  (GroupAlgebra_validates (fun _ _ => (0 : Nat)) ⟨true, false⟩ ⟨false⟩).2.1
    (Or.inl rfl) rfl

/-- C10: when the underlying structure of the group algebra coerces
from S, the coercion-discovery method returns a coercion exactly when
the algebra category is a subcategory of group algebras; an algebra of
an additive magma fails that test and admits no coercion from its
group. -/
theorem group_algebra_coercion_from_group (P : GAParent) (S : Nat)
    (h : P.gCoercesFrom S = true) :
    ( _coerce_map_from_ P S).isSome ↔ P.isGroupAlgebraCat = true := by
  unfold _coerce_map_from_
  rw [if_pos h]
  by_cases h2 : P.isGroupAlgebraCat = true <;> simp [h2]

theorem group_algebra_coercion_from_group_witness :
    ( _coerce_map_from_ (GAParent.mk (fun _ => true) false (fun _ => false)
        (fun _ => false) (fun _ => false)) 0).isSome ↔ False := by
  have h := group_algebra_coercion_from_group
    (GAParent.mk (fun _ => true) false (fun _ => false) (fun _ => false)
      (fun _ => false)) 0 rfl
  simpa using h

end Sage
